import Mathlib

/-
Verification of the itom signal/slot library
(src/include/itom/signals: signal.h, connection.h, auto_terminator.h,
detail/internals.h).

Shallow embedding. A `detail::Slot` is a heap node owned (via
`std::shared_ptr`) by the slot list of one `detail::SignalImpl`; its
address is its identity. We model the address by a natural number `id`
allocated freshly at each `Connect` (ids are never reused while any weak
reference may observe them, matching `shared_ptr` identity). The
`std::function` member `slot_` is modeled by its two observable aspects:
`hasTarget` (the `operator bool` test performed in `Signal::operator()`)
and `effects`, the list of slot ids on which the callable, when invoked,
calls `Connection::Terminate` against the same signal (the only
signal-visible side effect a callable can have that the claims exercise).

A `Connection` stores `weak_ptr`s to the slot node and to the
`SignalImpl`. A weak reference to a slot is expired exactly when the
slot is no longer stored in a living `SignalImpl` (the list holds the
only `shared_ptr`); the weak reference to the `SignalImpl` is expired
exactly when the `Signal` wrapper has been destroyed (the wrapper holds
the only `shared_ptr` to the impl).

`World` packages the state needed by the claims: one signal (its
liveness and slot list), one `AutoTerminator` owner (its liveness and
`connections_` list), and the fresh-id allocator.
-/

namespace SigSlot

/-- Model of `detail::Slot<Args...>` plus its stable identity: `id` is the
node address, `hasTarget` is `static_cast<bool>(slot_)`, `active` is the
`active_` flag of `detail::ISlot`, and `effects` records which slot ids the
stored callable terminates on the same signal when it runs. -/
structure Slot where
  id : Nat
  hasTarget : Bool
  active : Bool
  effects : List Nat
deriving DecidableEq, Repr

/-- Model of `SignalImpl::Terminate(ISlot* slot)`:
`slots_.erase(std::remove_if(..., stored.get() == slot), end)` keeps, in
order, exactly the stored slots whose address differs from `slot`. -/
def implTerminate (st : List Slot) (i : Nat) : List Slot :=
  st.filter fun s => s.id != i

/-- Runs the side effects of one invoked callable: each recorded id is
terminated in turn (each `Connection::Terminate` boils down to
`SignalImpl::Terminate` while the signal is alive; on an id that is no
longer stored it is a no-op, which `implTerminate` also is). -/
def runEffects (st : List Slot) (eff : List Nat) : List Slot :=
  eff.foldl implTerminate st

/-- Model of the loop of `Signal::operator()` / `SignalImpl::Emit` over
`std::list`. The iterator walks the original nodes in order (`work` is the
sequence of nodes the iteration has not reached yet); a node erased
mid-pass is simply no longer in the container when the iterator would
reach it, which the `st.any` membership test captures. The trace records,
in order, the id of each invoked slot together with the arguments passed
to it. Erasure of a node never changes the fields of the surviving nodes,
so reading the fields of `s` from `work` agrees with reading them from the
live container. -/
def emitGo (args : α) : List Slot → List Slot → List (Nat × α) → List (Nat × α) × List Slot
  | st, [], acc => (acc.reverse, st)
  | st, s :: work, acc =>
    if st.any fun u => u.id == s.id then
      if s.hasTarget && s.active then
        emitGo args (runEffects st s.effects) work ((s.id, args) :: acc)
      else
        emitGo args st work acc
    else
      emitGo args st work acc

/-- Model of one full `Emit(args)` pass: iterate from `begin()` over all
nodes present at the moment of the call; returns the invocation trace and
the final slot list. -/
def emitSig (args : α) (st : List Slot) : List (Nat × α) × List Slot :=
  emitGo args st st []

/-- Model of `itom::Connection`: `slot` is the `weak_ptr<ISlot>` (the id of
the node it was created from, or `none` for a default-constructed
connection whose weak reference is empty), `sig` records whether the
`weak_ptr<ISignalImpl>` was bound at construction. -/
structure Connection where
  slot : Option Nat
  sig : Bool
deriving DecidableEq, Repr

/-- Connections produced by the source always bind both weak references
together (`Connection(impl_->slots_.back(), impl_)`) or neither
(`Connection()`): the signal reference is bound exactly when the slot
reference is. -/
def ConnWF (c : Connection) : Prop :=
  c.sig = c.slot.isSome

instance (c : Connection) : Decidable (ConnWF c) := by
  unfold ConnWF; infer_instance

/-- World state: one `Signal` (aliveness of its `SignalImpl` plus the slot
list), one `AutoTerminator` owner (aliveness plus its `connections_`
list), and the allocator for fresh slot identities. -/
structure World where
  sigAlive : Bool
  slots : List Slot
  ownerAlive : Bool
  owned : List Connection
  nextId : Nat
deriving DecidableEq, Repr

/-- Fresh world: a default-constructed `Signal` and a default-constructed
`AutoTerminator`. -/
def initWorld : World :=
  { sigAlive := true, slots := [], ownerAlive := true, owned := [], nextId := 0 }

/-- Model of `Signal::Connect(S&& function)`: `emplace_back` a new shared
slot (fresh identity, the `active_` flag defaults to `true`), return a
`Connection` to it and to the impl. -/
def signalConnect (w : World) (hasTarget : Bool) (eff : List Nat) : World × Connection :=
  let s : Slot := { id := w.nextId, hasTarget := hasTarget, active := true, effects := eff }
  ({ w with slots := w.slots ++ [s], nextId := w.nextId + 1 },
   { slot := some s.id, sig := true })

/-- Model of `Signal::Connect(S&& function, AutoTerminator* terminator)`:
if the owner pointer is non-null, append the slot, emplace a copy of the
connection in the owner and return the connection; otherwise return the
default (inert) connection and change nothing. -/
def signalConnectOwned (w : World) (hasTarget : Bool) (eff : List Nat)
    (ownerPresent : Bool) : World × Connection :=
  if ownerPresent then
    let s : Slot := { id := w.nextId, hasTarget := hasTarget, active := true, effects := eff }
    let c : Connection := { slot := some s.id, sig := true }
    ({ w with slots := w.slots ++ [s], nextId := w.nextId + 1, owned := w.owned ++ [c] }, c)
  else
    (w, { slot := none, sig := false })

/-- Model of `Connection::IsTerminated`: `slot_.expired()`. The only
`shared_ptr` to a slot node lives in the slot list of a living
`SignalImpl`, so the weak reference is expired exactly when the signal is
dead or the node is no longer stored. -/
def isTerminated (w : World) (c : Connection) : Bool :=
  match c.slot with
  | none => true
  | some i => !(w.sigAlive && w.slots.any fun s => s.id == i)

/-- Model of `Connection::Terminate`: lock the slot, then lock the signal,
then call `SignalImpl::Terminate` on the node; a failed lock at either
step makes the call a no-op. -/
def conTerminate (w : World) (c : Connection) : World :=
  match c.slot with
  | none => w
  | some i =>
    if w.sigAlive && w.slots.any fun s => s.id == i then
      if c.sig && w.sigAlive then
        { w with slots := implTerminate w.slots i }
      else w
    else w

/-- Model of `Connection::Activate(bool activate)`: if the slot lock
succeeds, write `active_`; otherwise a no-op. Under distinct identities
the map rewrites exactly the referenced node. -/
def conActivate (w : World) (c : Connection) (b : Bool) : World :=
  match c.slot with
  | none => w
  | some i =>
    if w.sigAlive && w.slots.any fun s => s.id == i then
      { w with slots := w.slots.map fun s => if s.id == i then { s with active := b } else s }
    else w

/-- Model of `Connection::IsActive`: if the slot lock succeeds, read
`active_`, else `false`. -/
def conIsActive (w : World) (c : Connection) : Bool :=
  match c.slot with
  | none => false
  | some i =>
    if w.sigAlive then
      match w.slots.find? (fun s => s.id == i) with
      | some s => s.active
      | none => false
    else false

/-- Value of the expression `impl_->slots_.size()` inside
`Signal::GetSlotCount`, before the narrowing conversion imposed by the
declared `bool` return type. -/
def slotsSize (w : World) : Nat :=
  w.slots.length

/-- Model of `Signal::GetSlotCount` as declared:
`bool GetSlotCount() const { return impl_->slots_.size(); }` — the
`size_t` value is converted to `bool` on return. -/
def getSlotCount (w : World) : Bool :=
  w.slots.length != 0

/-- Model of `Signal::TerminateAll`: `impl_->slots_.clear()`. -/
def signalTerminateAll (w : World) : World :=
  { w with slots := [] }

/-- Model of `AutoTerminator::TerminateAll`: call `Terminate()` on every
held connection, in list order. The `connections_` list is not cleared by
the source. -/
def ownerTerminateAll (w : World) : World :=
  w.owned.foldl conTerminate w

/-- Model of `AutoTerminator::GetConnectionCount`:
`connections_.size()` (declared `size_t`). -/
def getConnectionCount (w : World) : Nat :=
  w.owned.length

/-- Model of `~AutoTerminator`: run `TerminateAll()`, then the object and
its `connections_` list cease to exist. -/
def destroyOwner (w : World) : World :=
  let w1 := ownerTerminateAll w
  { w1 with ownerAlive := false, owned := [] }

/-- Model of destroying the `Signal` wrapper: the only `shared_ptr` to the
`SignalImpl` dies, destroying the impl and with it every stored slot
`shared_ptr`, so every weak reference into this signal expires. -/
def destroySignal (w : World) : World :=
  { w with sigAlive := false, slots := [] }

/-- Operations a client can subsequently perform on the modeled objects;
closed under everything the claims quantify over (connects, emits,
terminations, activation toggles, and teardown of either side). -/
inductive Op where
  | connect (hasTarget : Bool) (eff : List Nat)
  | connectOwned (hasTarget : Bool) (eff : List Nat) (ownerPresent : Bool)
  | terminate (c : Connection)
  | activate (c : Connection) (b : Bool)
  | emit
  | sigTerminateAll
  | ownTerminateAll
  | killSignal
  | killOwner
deriving DecidableEq, Repr

/-- Interpretation of one operation on the world. -/
def applyOp (w : World) : Op → World
  | .connect h e => (signalConnect w h e).1
  | .connectOwned h e p => (signalConnectOwned w h e p).1
  | .terminate c => conTerminate w c
  | .activate c b => conActivate w c b
  | .emit => { w with slots := (emitSig () w.slots).2 }
  | .sigTerminateAll => signalTerminateAll w
  | .ownTerminateAll => ownerTerminateAll w
  | .killSignal => destroySignal w
  | .killOwner => destroyOwner w

/-! ### Basic lemmas about the slot-list operations -/

theorem runEffects_nil (st : List Slot) : runEffects st [] = st := rfl

theorem mem_implTerminate {st : List Slot} {i : Nat} {s : Slot}
    (h : s ∈ implTerminate st i) : s ∈ st :=
  List.mem_of_mem_filter h

theorem mem_runEffects {eff : List Nat} {st : List Slot} {s : Slot}
    (h : s ∈ runEffects st eff) : s ∈ st := by
  induction eff generalizing st with
  | nil => exact h
  | cons e eff ih => exact mem_implTerminate (ih h)

theorem mem_emitGo_snd {args : α} {work : List Slot} :
    ∀ {st : List Slot} {acc : List (Nat × α)} {s : Slot},
      s ∈ (emitGo args st work acc).2 → s ∈ st := by
  induction work with
  | nil => intro st acc s h; exact h
  | cons t work ih =>
    intro st acc s h
    rw [emitGo] at h
    split at h
    · split at h
      · exact mem_runEffects (ih h)
      · exact ih h
    · exact ih h

/-- In a pass where no reached slot has side effects on the signal, the
container is left unchanged and the trace is exactly the active, non-empty
slots of the remaining worklist, in order. -/
theorem emitGo_pure {args : α} {work : List Slot} :
    ∀ {st : List Slot} {acc : List (Nat × α)},
      (∀ s ∈ st, s.effects = []) → (∀ t ∈ work, t ∈ st) →
      emitGo args st work acc =
        (acc.reverse ++
          (work.filter fun s => s.hasTarget && s.active).map (fun s => (s.id, args)), st) := by
  induction work with
  | nil => intro st acc _ _; simp [emitGo]
  | cons s work ih =>
    intro st acc hpure hsub
    have hs : s ∈ st := hsub s (List.mem_cons_self s work)
    have hany : (st.any fun u => u.id == s.id) = true :=
      List.any_eq_true.mpr ⟨s, hs, by simp⟩
    have heff : s.effects = [] := hpure s hs
    have hsub' : ∀ t ∈ work, t ∈ st := fun t ht => hsub t (List.mem_cons_of_mem s ht)
    rw [emitGo, hany]
    by_cases hp : (s.hasTarget && s.active) = true
    · rw [if_pos rfl, if_pos hp, heff, runEffects_nil, ih hpure hsub']
      simp [List.filter_cons, hp]
    · rw [if_pos rfl, if_neg (by simp [hp]), ih hpure hsub']
      simp [List.filter_cons, hp]

/-- One full `Emit` over mutation-free callables: the trace is the filter
of the slot list at the moment of the call, and the list is unchanged. -/
theorem emitSig_pure (args : α) {st : List Slot} (hpure : ∀ s ∈ st, s.effects = []) :
    emitSig args st =
      ((st.filter fun s => s.hasTarget && s.active).map (fun s => (s.id, args)), st) := by
  unfold emitSig
  rw [emitGo_pure hpure (fun t ht => ht)]
  simp

/-- Once an id is absent from the container and from the trace so far, it
never enters the trace: erased nodes are not invoked later in the pass. -/
theorem emitGo_avoid {args : α} {j : Nat} {work : List Slot} :
    ∀ {st : List Slot} {acc : List (Nat × α)},
      (∀ s ∈ st, s.id ≠ j) → (∀ q ∈ acc, q.1 ≠ j) →
      ∀ q ∈ (emitGo args st work acc).1, q.1 ≠ j := by
  induction work with
  | nil =>
    intro st acc _ hacc q hq
    rw [emitGo] at hq
    exact hacc q (List.mem_reverse.mp hq)
  | cons s work ih =>
    intro st acc hst hacc q hq
    rw [emitGo] at hq
    split at hq
    · rename_i hany
      have hsid : s.id ≠ j := by
        obtain ⟨u, hu, hbeq⟩ := List.any_eq_true.mp hany
        have : u.id = s.id := by simpa using hbeq
        exact this ▸ hst u hu
      split at hq
      · refine ih (fun t ht => hst t (mem_runEffects ht)) ?_ q hq
        intro p hp
        rcases List.mem_cons.mp hp with h | h
        · rw [h]; exact hsid
        · exact hacc p h
      · exact ih hst hacc q hq
    · exact ih hst hacc q hq

/-! ### Lemmas about `Connection::Terminate` and teardown -/

theorem conTerminate_sigAlive (w : World) (c : Connection) :
    (conTerminate w c).sigAlive = w.sigAlive := by
  unfold conTerminate
  split
  · rfl
  · split
    · split
      · rfl
      · rfl
    · rfl

theorem conTerminate_owned (w : World) (c : Connection) :
    (conTerminate w c).owned = w.owned := by
  unfold conTerminate
  split
  · rfl
  · split
    · split
      · rfl
      · rfl
    · rfl

theorem conTerminate_ownerAlive (w : World) (c : Connection) :
    (conTerminate w c).ownerAlive = w.ownerAlive := by
  unfold conTerminate
  split
  · rfl
  · split
    · split
      · rfl
      · rfl
    · rfl

theorem conTerminate_nextId (w : World) (c : Connection) :
    (conTerminate w c).nextId = w.nextId := by
  unfold conTerminate
  split
  · rfl
  · split
    · split
      · rfl
      · rfl
    · rfl

theorem mem_conTerminate {w : World} {c : Connection} {s : Slot}
    (h : s ∈ (conTerminate w c).slots) : s ∈ w.slots := by
  unfold conTerminate at h
  split at h
  · exact h
  · split at h
    · split at h
      · exact mem_implTerminate h
      · exact h
    · exact h

/-- Expiry of the slot weak reference is preserved by any transition that
keeps the signal dead or only removes or rewrites stored nodes without
introducing the watched id. -/
theorem isTerminated_of_subset {w w' : World} (c : Connection)
    (hA : w'.sigAlive = w.sigAlive) (hs : ∀ s ∈ w'.slots, s ∈ w.slots)
    (h : isTerminated w c = true) : isTerminated w' c = true := by
  cases hc : c.slot with
  | none => simp [isTerminated, hc]
  | some i =>
    simp only [isTerminated, hc, Bool.not_eq_true', Bool.and_eq_false_iff] at h ⊢
    rcases h with h | h
    · exact Or.inl (hA.trans h)
    · refine Or.inr ?_
      rw [List.any_eq_false] at h ⊢
      exact fun s hmem => h s (hs s hmem)

/-- After a successful or failed `Terminate`, the connection reports
terminated (the referenced node is no longer stored, or never was). -/
theorem isTerminated_conTerminate_self {w : World} {c : Connection}
    (hwf : ConnWF c) : isTerminated (conTerminate w c) c = true := by
  unfold conTerminate
  split
  · rename_i hc
    simp [isTerminated, hc]
  · rename_i i hc
    have hsig : c.sig = true := by
      unfold ConnWF at hwf
      rw [hc] at hwf
      simpa using hwf
    split
    · rename_i hguard
      have hA : w.sigAlive = true := (by simpa using hguard : _ ∧ _).1
      rw [if_pos (by rw [hsig, hA]; exact rfl)]
      simp only [isTerminated, hc]
      refine (Bool.not_eq_true' _).mpr (Bool.and_eq_false_iff.mpr (Or.inr ?_))
      rw [List.any_eq_false]
      intro s hmem
      have := List.mem_filter.mp hmem
      simpa using this.2
    · rename_i hguard
      simp only [isTerminated, hc]
      exact (Bool.not_eq_true' _).mpr (Bool.eq_false_iff.mpr hguard)

/-- A fold of `Terminate` calls preserves a connection's terminated
state. -/
theorem isTerminated_foldl_conTerminate {c : Connection} {L : List Connection} :
    ∀ {w : World}, isTerminated w c = true →
      isTerminated (L.foldl conTerminate w) c = true := by
  induction L with
  | nil => intro w h; exact h
  | cons d L ih =>
    intro w h
    exact ih (isTerminated_of_subset c (conTerminate_sigAlive w d)
      (fun s hs => mem_conTerminate hs) h)

theorem foldl_conTerminate_sigAlive (L : List Connection) :
    ∀ (w : World), (L.foldl conTerminate w).sigAlive = w.sigAlive := by
  induction L with
  | nil => intro w; rfl
  | cons d L ih => intro w; rw [List.foldl_cons, ih, conTerminate_sigAlive]

theorem foldl_conTerminate_owned (L : List Connection) :
    ∀ (w : World), (L.foldl conTerminate w).owned = w.owned := by
  induction L with
  | nil => intro w; rfl
  | cons d L ih => intro w; rw [List.foldl_cons, ih, conTerminate_owned]

theorem mem_foldl_conTerminate {L : List Connection} {s : Slot} :
    ∀ {w : World}, s ∈ (L.foldl conTerminate w).slots → s ∈ w.slots := by
  induction L with
  | nil => intro w h; exact h
  | cons d L ih => intro w h; exact mem_conTerminate (ih h)

/-- `AutoTerminator::TerminateAll` leaves every held connection in the
terminated state. -/
theorem foldl_conTerminate_terminates {L : List Connection} :
    ∀ {w : World}, (∀ c ∈ L, ConnWF c) →
      ∀ c ∈ L, isTerminated (L.foldl conTerminate w) c = true := by
  induction L with
  | nil => intro w _ c hc; cases hc
  | cons d L ih =>
    intro w hwf c hc
    rw [List.foldl_cons]
    rcases List.mem_cons.mp hc with h | h
    · subst h
      exact isTerminated_foldl_conTerminate
        (isTerminated_conTerminate_self (hwf c (List.mem_cons_self c L)))
    · exact ih (fun e he => hwf e (List.mem_cons_of_mem d he)) c h

theorem foldl_conTerminate_nextId (L : List Connection) :
    ∀ (w : World), (L.foldl conTerminate w).nextId = w.nextId := by
  induction L with
  | nil => intro w; rfl
  | cons d L ih => intro w; rw [List.foldl_cons, ih, conTerminate_nextId]

theorem isTerminated_of_dead {w : World} (h : w.sigAlive = false) (c : Connection) :
    isTerminated w c = true := by
  unfold isTerminated
  split
  · rfl
  · rw [h]
    rfl

theorem destroyOwner_sigAlive (w : World) :
    (destroyOwner w).sigAlive = w.sigAlive := by
  show (ownerTerminateAll w).sigAlive = w.sigAlive
  exact foldl_conTerminate_sigAlive w.owned w

theorem destroyOwner_nextId (w : World) :
    (destroyOwner w).nextId = w.nextId := by
  show (ownerTerminateAll w).nextId = w.nextId
  exact foldl_conTerminate_nextId w.owned w

theorem destroyOwner_slots (w : World) :
    (destroyOwner w).slots = (ownerTerminateAll w).slots := rfl

theorem isTerminated_destroyOwner (w : World) (c : Connection) :
    isTerminated (destroyOwner w) c = isTerminated (ownerTerminateAll w) c := by
  unfold isTerminated
  split
  · rfl
  · rfl

/-! ### Lemmas about `Connection::Activate` -/

theorem conActivate_sigAlive (w : World) (c : Connection) (b : Bool) :
    (conActivate w c b).sigAlive = w.sigAlive := by
  unfold conActivate
  split
  · rfl
  · split
    · rfl
    · rfl

theorem conActivate_nextId (w : World) (c : Connection) (b : Bool) :
    (conActivate w c b).nextId = w.nextId := by
  unfold conActivate
  split
  · rfl
  · split
    · rfl
    · rfl

theorem conActivate_slots_map_id (w : World) (c : Connection) (b : Bool) :
    (conActivate w c b).slots.map Slot.id = w.slots.map Slot.id := by
  unfold conActivate
  split
  · rfl
  · split
    · rename_i i hc hguard
      simp only [List.map_map]
      apply List.map_congr_left
      intro a _
      by_cases h : (a.id == i) = true <;> simp [Function.comp, h]
    · rfl

theorem conActivate_length (w : World) (c : Connection) (b : Bool) :
    (conActivate w c b).slots.length = w.slots.length := by
  have := congrArg List.length (conActivate_slots_map_id w c b)
  simpa using this

/-! ### The operation language preserves the teardown invariants -/

theorem applyOp_nextId_le (w : World) (o : Op) :
    w.nextId ≤ (applyOp w o).nextId := by
  cases o with
  | connect h e => exact Nat.le_succ _
  | connectOwned h e p =>
    simp only [applyOp, signalConnectOwned]
    split
    · exact Nat.le_succ _
    · exact Nat.le_refl _
  | terminate c => exact (conTerminate_nextId w c).ge
  | activate c b => exact (conActivate_nextId w c b).ge
  | emit => exact Nat.le_refl _
  | sigTerminateAll => exact Nat.le_refl _
  | ownTerminateAll => exact (foldl_conTerminate_nextId w.owned w).ge
  | killSignal => exact Nat.le_refl _
  | killOwner => exact (destroyOwner_nextId w).ge

theorem applyOp_sigAlive_false (w : World) (o : Op) (h : w.sigAlive = false) :
    (applyOp w o).sigAlive = false := by
  cases o with
  | connect ht e => exact h
  | connectOwned h' e p =>
    simp only [applyOp, signalConnectOwned]
    split
    · exact h
    · exact h
  | terminate c => rw [applyOp, conTerminate_sigAlive]; exact h
  | activate c b => rw [applyOp, conActivate_sigAlive]; exact h
  | emit => exact h
  | sigTerminateAll => exact h
  | ownTerminateAll => rw [applyOp]; rw [show ownerTerminateAll w = w.owned.foldl conTerminate w from rfl, foldl_conTerminate_sigAlive]; exact h
  | killSignal => rfl
  | killOwner => rw [applyOp, destroyOwner_sigAlive]; exact h

theorem applyOp_slots_avoid (w : World) (o : Op) (i : Nat)
    (hlt : i < w.nextId) (hav : ∀ s ∈ w.slots, s.id ≠ i) :
    ∀ s ∈ (applyOp w o).slots, s.id ≠ i := by
  cases o with
  | connect h e =>
    intro s hs
    rcases List.mem_append.mp hs with hs | hs
    · exact hav s hs
    · rw [List.mem_singleton.mp hs]
      exact Nat.ne_of_gt hlt
  | connectOwned h e p =>
    intro s hs
    simp only [applyOp, signalConnectOwned] at hs
    split at hs
    · rcases List.mem_append.mp hs with hs | hs
      · exact hav s hs
      · rw [List.mem_singleton.mp hs]
        exact Nat.ne_of_gt hlt
    · exact hav s hs
  | terminate c => exact fun s hs => hav s (mem_conTerminate hs)
  | activate c b =>
    intro s hs
    have hmem : s.id ∈ (conActivate w c b).slots.map Slot.id :=
      List.mem_map_of_mem Slot.id hs
    rw [conActivate_slots_map_id] at hmem
    obtain ⟨t, ht, hid⟩ := List.mem_map.mp hmem
    rw [← hid]
    exact hav t ht
  | emit => exact fun s hs => hav s (mem_emitGo_snd hs)
  | sigTerminateAll => intro s hs; cases hs
  | ownTerminateAll => exact fun s hs => hav s (mem_foldl_conTerminate hs)
  | killSignal => intro s hs; cases hs
  | killOwner =>
    intro s hs
    rw [applyOp, destroyOwner_slots] at hs
    exact hav s (mem_foldl_conTerminate hs)

/-- Once a slot id is absent (or the signal dead), every reachable later
world still lacks it (or still has the signal dead). -/
theorem foldl_applyOp_avoid {ops : List Op} {i : Nat} :
    ∀ {w : World}, i < w.nextId →
      (w.sigAlive = false ∨ ∀ s ∈ w.slots, s.id ≠ i) →
      (ops.foldl applyOp w).sigAlive = false ∨
        ∀ s ∈ (ops.foldl applyOp w).slots, s.id ≠ i := by
  induction ops with
  | nil => intro w _ hdisj; exact hdisj
  | cons o ops ih =>
    intro w hlt hdisj
    rw [List.foldl_cons]
    refine ih (Nat.lt_of_lt_of_le hlt (applyOp_nextId_le w o)) ?_
    rcases hdisj with h | h
    · exact Or.inl (applyOp_sigAlive_false w o h)
    · exact Or.inr (applyOp_slots_avoid w o i hlt h)

/-- Bool-level reading of `IsTerminated` for a bound slot reference. -/
theorem isTerminated_iff {w : World} {c : Connection} {i : Nat} (hc : c.slot = some i) :
    isTerminated w c = true ↔
      (w.sigAlive = false ∨ ∀ s ∈ w.slots, s.id ≠ i) := by
  simp only [isTerminated, hc]
  constructor
  · intro h
    have h' := (Bool.not_eq_true' _).mp h
    rcases Bool.and_eq_false_iff.mp h' with h'' | h''
    · exact Or.inl h''
    · refine Or.inr ?_
      intro s hs
      have := List.any_eq_false.mp h'' s hs
      simpa using this
  · intro h
    refine (Bool.not_eq_true' _).mpr (Bool.and_eq_false_iff.mpr ?_)
    rcases h with h | h
    · exact Or.inl h
    · refine Or.inr ?_
      rw [List.any_eq_false]
      intro s hs
      simpa using h s hs

/-! ### Frame lemmas: erasing one identity leaves the rest untouched -/

theorem any_beq_filter_ne {st : List Slot} {i j : Nat} (h : j ≠ i) :
    ((st.filter fun s => s.id != i).any fun s => s.id == j) =
      (st.any fun s => s.id == j) := by
  induction st with
  | nil => rfl
  | cons s st ih =>
    by_cases hsi : s.id = i
    · have h1 : (s.id != i) = false := by simp [hsi]
      have h2 : (s.id == j) = false := by
        simp only [beq_eq_false_iff_ne, ne_eq, hsi]
        exact fun hh => h hh.symm
      simp [List.filter_cons, h1, h2, ih]
    · have h1 : (s.id != i) = true := by simp [hsi]
      simp [List.filter_cons, h1, ih]

theorem find?_beq_filter_ne {st : List Slot} {i j : Nat} (h : j ≠ i) :
    (st.filter fun s => s.id != i).find? (fun s => s.id == j) =
      st.find? (fun s => s.id == j) := by
  induction st with
  | nil => rfl
  | cons s st ih =>
    by_cases hsi : s.id = i
    · have h1 : (s.id != i) = false := by simp [hsi]
      have h2 : (s.id == j) = false := by
        simp only [beq_eq_false_iff_ne, ne_eq, hsi]
        exact fun hh => h hh.symm
      simp [List.filter_cons, h1, List.find?_cons, h2, ih]
    · have h1 : (s.id != i) = true := by simp [hsi]
      by_cases h2 : (s.id == j) = true
      · simp [List.filter_cons, h1, List.find?_cons, h2]
      · simp only [Bool.not_eq_true] at h2
        simp [List.filter_cons, h1, List.find?_cons, h2, ih]

/-- When the signal is alive, `Connection::Terminate` on a bound
connection rewrites the slot list to exactly the erase-remove filter of
the referenced identity (a no-op filter when the node is already gone). -/
theorem conTerminate_slots_filter {w : World} {c : Connection} {i : Nat}
    (hA : w.sigAlive = true) (hc : c.slot = some i) (hsig : c.sig = true) :
    (conTerminate w c).slots = w.slots.filter (fun s => s.id != i) := by
  unfold conTerminate
  split
  · rename_i hnone
    rw [hc] at hnone
    cases hnone
  · rename_i i' hsome
    rw [hc] at hsome
    injection hsome with hii
    subst hii
    split
    · rw [if_pos (by rw [hsig, hA]; exact rfl)]
      rfl
    · rename_i hguard
      have hany : (w.slots.any fun s => s.id == i) = false := by
        rcases Bool.and_eq_false_iff.mp (Bool.eq_false_iff.mpr hguard) with h | h
        · rw [hA] at h; cases h
        · exact h
      refine (List.filter_eq_self.mpr ?_).symm
      intro s hs
      have := List.any_eq_false.mp hany s hs
      simpa using this

/-- `Activate` on a dead or terminated connection is a no-op. -/
theorem conActivate_of_terminated {u : World} {d : Connection}
    (hu : isTerminated u d = true) (b : Bool) : conActivate u d b = u := by
  unfold conActivate
  split
  · rfl
  · rename_i i hd
    have hfalse : (u.sigAlive && u.slots.any fun s => s.id == i) = false := by
      have := hu
      simp only [isTerminated, hd] at this
      exact (Bool.not_eq_true' _).mp this
    rw [if_neg (by rw [hfalse]; exact Bool.false_ne_true)]

/-- `IsActive` on a dead or terminated connection reports `false`. -/
theorem conIsActive_of_terminated {u : World} {d : Connection}
    (hu : isTerminated u d = true) : conIsActive u d = false := by
  unfold conIsActive
  split
  · rfl
  · rename_i i hd
    have hfalse : (u.sigAlive && u.slots.any fun s => s.id == i) = false := by
      have := hu
      simp only [isTerminated, hd] at this
      exact (Bool.not_eq_true' _).mp this
    rcases Bool.and_eq_false_iff.mp hfalse with h | h
    · simp [h]
    · have hnone : u.slots.find? (fun s => s.id == i) = none := by
        apply List.find?_eq_none.mpr
        intro s hs
        exact List.any_eq_false.mp h s hs
      rw [hnone]
      split <;> rfl

/-- `IsActive` on a live connection reads the `active_` flag of the
referenced node. -/
theorem conIsActive_of_find {w : World} {c : Connection} {i : Nat} {s : Slot}
    (hA : w.sigAlive = true) (hc : c.slot = some i)
    (hfind : w.slots.find? (fun t => t.id == i) = some s) :
    conIsActive w c = s.active := by
  unfold conIsActive
  split
  · rename_i hnone
    rw [hc] at hnone
    cases hnone
  · rename_i i' hsome
    rw [hc] at hsome
    injection hsome with hii
    subst hii
    rw [if_pos hA, hfind]

/-- `Terminate` on a dead or already-terminated connection is a no-op:
the first `lock()` fails. -/
theorem conTerminate_of_terminated {u : World} {d : Connection}
    (hu : isTerminated u d = true) : conTerminate u d = u := by
  unfold conTerminate
  split
  · rfl
  · rename_i i hd
    have hfalse : (u.sigAlive && u.slots.any fun s => s.id == i) = false := by
      have := hu
      simp only [isTerminated, hd] at this
      exact (Bool.not_eq_true' _).mp this
    rw [if_neg (by rw [hfalse]; exact Bool.false_ne_true)]

/-- Repeat calls to `Terminate` are no-ops. -/
theorem conTerminate_idem (v : World) (d : Connection) :
    conTerminate (conTerminate v d) d = conTerminate v d := by
  cases hslot : d.slot with
  | none =>
    have h1 : ∀ u : World, conTerminate u d = u := by
      intro u
      unfold conTerminate
      rw [hslot]
    rw [h1, h1]
  | some i =>
    by_cases hsig : d.sig = true
    · have hwf : ConnWF d := by
        unfold ConnWF
        rw [hslot]
        simpa using hsig
      exact conTerminate_of_terminated (isTerminated_conTerminate_self hwf)
    · have hsig' : d.sig = false := Bool.eq_false_iff.mpr hsig
      have h1 : ∀ u : World, conTerminate u d = u := by
        intro u
        simp [conTerminate, hslot, hsig']
      rw [h1, h1]

theorem any_of_find? {st : List Slot} {p : Slot → Bool} {s : Slot}
    (h : st.find? p = some s) : st.any p = true :=
  List.any_eq_true.mpr ⟨s, List.mem_of_find?_eq_some h, List.find?_some h⟩

/-- When the lock succeeds, `Activate` rewrites exactly the nodes carrying
the referenced identity. -/
theorem conActivate_slots_eq {w : World} {c : Connection} {i : Nat}
    (hA : w.sigAlive = true) (hc : c.slot = some i)
    (hany : (w.slots.any fun s => s.id == i) = true) (b : Bool) :
    (conActivate w c b).slots =
      w.slots.map (fun t => if t.id == i then { t with active := b } else t) := by
  unfold conActivate
  split
  · rename_i hnone
    rw [hc] at hnone
    cases hnone
  · rename_i i' hsome
    rw [hc] at hsome
    injection hsome with hii
    subst hii
    rw [if_pos (by rw [hA, hany]; exact rfl)]

theorem activeUpdate_effects (t : Slot) (i : Nat) (b : Bool) :
    (if t.id == i then { t with active := b } else t).effects = t.effects := by
  by_cases h : (t.id == i) = true <;> simp [h]

theorem activeUpdate_id (t : Slot) (i : Nat) (b : Bool) :
    (if t.id == i then { t with active := b } else t).id = t.id := by
  by_cases h : (t.id == i) = true <;> simp [h]

theorem activeUpdate_hasTarget (t : Slot) (i : Nat) (b : Bool) :
    (if t.id == i then { t with active := b } else t).hasTarget = t.hasTarget := by
  by_cases h : (t.id == i) = true <;> simp [h]

/-! ### Claim theorems -/

/-- C1: for every signal and every emission whose callables have no
reentrant effects on the signal, `Emit` invokes exactly the slots that are
stored, active, and have a non-empty callable at the moment of the call,
in insertion order, passing the arguments to each; identities being
distinct, no slot is invoked twice in one pass. -/
theorem emit_exact_trace (args : α) (st : List Slot)
    (hpure : ∀ s ∈ st, s.effects = [])
    (hnodup : (st.map Slot.id).Nodup) :
    (emitSig args st).1 =
      (st.filter fun s => s.hasTarget && s.active).map (fun s => (s.id, args))
    ∧ ((emitSig args st).1.map Prod.fst).Nodup := by
  have h := emitSig_pure args hpure
  constructor
  · rw [h]
  · rw [h]
    have hmm : ((st.filter fun s => s.hasTarget && s.active).map
          fun s => (s.id, args)).map Prod.fst
        = (st.filter fun s => s.hasTarget && s.active).map Slot.id := by
      simp [List.map_map]
    rw [hmm]
    exact ((List.filter_sublist st).map Slot.id).nodup hnodup

theorem emit_exact_trace_witness :
    (emitSig 5 [⟨0, true, true, []⟩, ⟨1, false, true, []⟩,
        ⟨2, true, false, []⟩, ⟨3, true, true, []⟩]).1 =
      (([⟨0, true, true, []⟩, ⟨1, false, true, []⟩,
          ⟨2, true, false, []⟩, ⟨3, true, true, []⟩] : List Slot).filter
        fun s => s.hasTarget && s.active).map (fun s => (s.id, (5 : Nat)))
    ∧ (((emitSig 5 [⟨0, true, true, []⟩, ⟨1, false, true, []⟩,
        ⟨2, true, false, []⟩, ⟨3, true, true, []⟩]).1.map Prod.fst).Nodup) :=
  emit_exact_trace 5
    [⟨0, true, true, []⟩, ⟨1, false, true, []⟩, ⟨2, true, false, []⟩, ⟨3, true, true, []⟩]
    (by decide) (by decide)

/-- C9: on a `Signal<int, std::string>` with two slots connected in order,
`Emit(3, "x")` hands the argument pair `(3, "x")` to both slots, the first
connection's slot strictly before the second's. -/
theorem emit_pair_args_order :
    (signalConnect initWorld true []).2 = { slot := some 0, sig := true }
    ∧ (signalConnect (signalConnect initWorld true []).1 true []).2
        = { slot := some 1, sig := true }
    ∧ (emitSig ((3 : Int), "x")
        (signalConnect (signalConnect initWorld true []).1 true []).1.slots).1
        = [(0, ((3 : Int), "x")), (1, ((3 : Int), "x"))] :=
  ⟨rfl, rfl, rfl⟩

/-- C5: a slot erased by an earlier invocation of the same pass is not
invoked later in that pass (once an id is gone from the container and
absent from the trace so far, it never enters the trace), and the
traversal survives the mutation: in the concrete scenario, the first slot
terminates the third, the second still runs, the third does not. -/
theorem emit_removed_midpass (args : α) (st work : List Slot)
    (acc : List (Nat × α)) (j : Nat) (q : Nat × α)
    (hst : ∀ s ∈ st, s.id ≠ j) (hacc : ∀ p ∈ acc, p.1 ≠ j)
    (hq : q ∈ (emitGo args st work acc).1) :
    q.1 ≠ j
    ∧ emitSig (7 : Nat) [⟨0, true, true, [2]⟩, ⟨1, true, true, []⟩, ⟨2, true, true, []⟩]
        = ([(0, 7), (1, 7)], [⟨0, true, true, [2]⟩, ⟨1, true, true, []⟩]) :=
  ⟨emitGo_avoid hst hacc q hq, by decide⟩

theorem emit_removed_midpass_witness :
    ((1, (7 : Nat))).1 ≠ 2
    ∧ emitSig (7 : Nat) [⟨0, true, true, [2]⟩, ⟨1, true, true, []⟩, ⟨2, true, true, []⟩]
        = ([(0, 7), (1, 7)], [⟨0, true, true, [2]⟩, ⟨1, true, true, []⟩]) :=
  emit_removed_midpass 7 [⟨0, true, true, [2]⟩, ⟨1, true, true, []⟩]
    [⟨1, true, true, []⟩, ⟨2, true, true, []⟩] [(0, 7)] 2 (1, 7)
    (by decide) (by decide) (by decide)

/-- C7: the owner-taking `Connect` overload with a null owner returns the
default-constructed Connection, whose weak references are born expired:
`IsTerminated` is `true`, `IsActive` is `false`, `Terminate` and
`Activate` are no-ops, no slot is appended, and nothing fails. -/
theorem connect_null_owner_inert (w v : World) (ht : Bool) (e : List Nat) (b : Bool) :
    signalConnectOwned w ht e false = (w, { slot := none, sig := false })
    ∧ isTerminated v { slot := none, sig := false } = true
    ∧ conIsActive v { slot := none, sig := false } = false
    ∧ conTerminate v { slot := none, sig := false } = v
    ∧ conActivate v { slot := none, sig := false } b = v :=
  ⟨rfl, rfl, rfl, rfl, rfl⟩

/-- C3: the code narrows `slots_.size()` to the declared `bool` return
type of `GetSlotCount`, so after two connects the function returns the
same value as after one connect, even though two live slots are stored:
it does not return the number of live slots. -/
theorem getSlotCount_bool_narrowing :
    slotsSize (signalConnect (signalConnect initWorld true []).1 true []).1 = 2
    ∧ slotsSize (signalConnect initWorld true []).1 = 1
    ∧ getSlotCount (signalConnect (signalConnect initWorld true []).1 true []).1
        = getSlotCount (signalConnect initWorld true []).1
    ∧ getSlotCount initWorld = false := by
  decide

/-- C2: teardown is safe in both orders. Destroying the Signal first
expires every connection; destroying the owner afterwards changes
nothing. Destroying the owner first terminates every connection it holds.
In the concrete Scenario B, the slot connected through the owner is
invoked before the teardown, is not invoked afterwards, the stored slot
count drops from one to zero, and the outstanding connection reports
terminated; every modeled operation is total, so no access dangles. -/
theorem teardown_either_order (w : World) (c : Connection)
    (hwf : ∀ d ∈ w.owned, ConnWF d) :
    isTerminated (destroySignal w) c = true
    ∧ isTerminated (destroyOwner (destroySignal w)) c = true
    ∧ (c ∈ w.owned → isTerminated (destroyOwner w) c = true)
    ∧ (emitSig () (signalConnectOwned initWorld true [] true).1.slots).1 = [(0, ())]
    ∧ (emitSig () (destroyOwner (signalConnectOwned initWorld true [] true).1).slots).1 = []
    ∧ slotsSize (signalConnectOwned initWorld true [] true).1 = 1
    ∧ slotsSize (destroyOwner (signalConnectOwned initWorld true [] true).1) = 0
    ∧ isTerminated (destroyOwner (signalConnectOwned initWorld true [] true).1)
        (signalConnectOwned initWorld true [] true).2 = true := by
  refine ⟨isTerminated_of_dead rfl c, ?_, ?_, by decide, by decide, by decide, by decide,
    by decide⟩
  · refine isTerminated_of_dead ?_ c
    rw [destroyOwner_sigAlive]
    rfl
  · intro hc
    rw [isTerminated_destroyOwner]
    exact foldl_conTerminate_terminates hwf c hc

theorem teardown_either_order_witness :
    isTerminated (destroySignal (signalConnectOwned initWorld true [] true).1)
        (signalConnectOwned initWorld true [] true).2 = true
    ∧ isTerminated (destroyOwner (destroySignal (signalConnectOwned initWorld true [] true).1))
        (signalConnectOwned initWorld true [] true).2 = true
    ∧ ((signalConnectOwned initWorld true [] true).2
          ∈ (signalConnectOwned initWorld true [] true).1.owned →
        isTerminated (destroyOwner (signalConnectOwned initWorld true [] true).1)
          (signalConnectOwned initWorld true [] true).2 = true)
    ∧ (emitSig () (signalConnectOwned initWorld true [] true).1.slots).1 = [(0, ())]
    ∧ (emitSig () (destroyOwner (signalConnectOwned initWorld true [] true).1).slots).1 = []
    ∧ slotsSize (signalConnectOwned initWorld true [] true).1 = 1
    ∧ slotsSize (destroyOwner (signalConnectOwned initWorld true [] true).1) = 0
    ∧ isTerminated (destroyOwner (signalConnectOwned initWorld true [] true).1)
        (signalConnectOwned initWorld true [] true).2 = true :=
  teardown_either_order (signalConnectOwned initWorld true [] true).1
    (signalConnectOwned initWorld true [] true).2 (by decide)

/-- C6 counterexample: after an explicit `TerminateAll()` the
`connections_` list still holds the discharged connection, so
`GetConnectionCount()` reports 1, not the 0 an emptied list would give. -/
theorem ownerTerminateAll_count_cx :
    getConnectionCount (ownerTerminateAll (signalConnectOwned initWorld true [] true).1) = 1
    ∧ getConnectionCount (ownerTerminateAll (signalConnectOwned initWorld true [] true).1) ≠ 0 := by
  decide

/-- C6 (amended): `TerminateAll` calls `Terminate` on every held
connection, but does not empty the held list: the `connections_` list and
`GetConnectionCount()` are unchanged. Only destruction discards the list,
after which the count is zero. -/
theorem ownerTerminateAll_discharges (w : World) (c : Connection)
    (hwf : ∀ d ∈ w.owned, ConnWF d) (hc : c ∈ w.owned) :
    isTerminated (ownerTerminateAll w) c = true
    ∧ (ownerTerminateAll w).owned = w.owned
    ∧ getConnectionCount (ownerTerminateAll w) = getConnectionCount w
    ∧ (destroyOwner w).owned = []
    ∧ getConnectionCount (destroyOwner w) = 0 := by
  refine ⟨foldl_conTerminate_terminates hwf c hc, foldl_conTerminate_owned w.owned w, ?_, rfl, rfl⟩
  show (ownerTerminateAll w).owned.length = w.owned.length
  rw [show (ownerTerminateAll w).owned = w.owned from foldl_conTerminate_owned w.owned w]

theorem ownerTerminateAll_discharges_witness :
    isTerminated (ownerTerminateAll (signalConnectOwned initWorld true [] true).1)
        (signalConnectOwned initWorld true [] true).2 = true
    ∧ (ownerTerminateAll (signalConnectOwned initWorld true [] true).1).owned
        = (signalConnectOwned initWorld true [] true).1.owned
    ∧ getConnectionCount (ownerTerminateAll (signalConnectOwned initWorld true [] true).1)
        = getConnectionCount (signalConnectOwned initWorld true [] true).1
    ∧ (destroyOwner (signalConnectOwned initWorld true [] true).1).owned = []
    ∧ getConnectionCount (destroyOwner (signalConnectOwned initWorld true [] true).1) = 0 :=
  ownerTerminateAll_discharges (signalConnectOwned initWorld true [] true).1
    (signalConnectOwned initWorld true [] true).2 (by decide) (by decide)

/-- C4: the terminated state is absorbing. Once a connection reports
terminated, it still reports terminated after any further sequence of
operations (terminations, activations, emissions, new connects, bulk
teardown); one `Terminate` call suffices to make `IsTerminated` report
`true`, and repeat calls change nothing. -/
theorem terminated_absorbing (w v : World) (c d : Connection) (ops : List Op)
    (hbound : ∀ i, c.slot = some i → i < w.nextId)
    (hterm : isTerminated w c = true)
    (hd : ConnWF d) :
    isTerminated (ops.foldl applyOp w) c = true
    ∧ isTerminated (conTerminate v d) d = true
    ∧ conTerminate (conTerminate v d) d = conTerminate v d := by
  refine ⟨?_, isTerminated_conTerminate_self hd, conTerminate_idem v d⟩
  cases hc : c.slot with
  | none => simp [isTerminated, hc]
  | some i =>
    have hlt := hbound i hc
    have hdisj := (isTerminated_iff hc).mp hterm
    exact (isTerminated_iff hc).mpr (foldl_applyOp_avoid hlt hdisj)

theorem terminated_absorbing_witness :
    isTerminated
        ([Op.connect true [], Op.emit, Op.activate { slot := some 0, sig := true } true,
            Op.terminate { slot := some 0, sig := true }].foldl applyOp
          (conTerminate (signalConnect initWorld true []).1 { slot := some 0, sig := true }))
        { slot := some 0, sig := true } = true
    ∧ isTerminated (conTerminate initWorld { slot := none, sig := false })
        { slot := none, sig := false } = true
    ∧ conTerminate (conTerminate initWorld { slot := none, sig := false })
        { slot := none, sig := false }
      = conTerminate initWorld { slot := none, sig := false } :=
  terminated_absorbing
    (conTerminate (signalConnect initWorld true []).1 { slot := some 0, sig := true })
    initWorld { slot := some 0, sig := true } { slot := none, sig := false }
    [Op.connect true [], Op.emit, Op.activate { slot := some 0, sig := true } true,
      Op.terminate { slot := some 0, sig := true }]
    (fun i hi => by
      have h0 : i = 0 := (Option.some.inj hi).symm
      rw [h0]
      decide)
    (by decide) (by decide)

/-- C8: deactivating a live connection makes the next emissions skip its
slot without removing it (the stored count is unchanged by `Activate` and
the pass leaves the list intact), reactivating restores invocation,
`Activate` is a no-op on a dead or terminated connection, and `IsActive`
reads the active flag while alive and reports `false` once terminated. -/
theorem activation_contract (args : α) (w u v : World) (c d e : Connection)
    (i : Nat) (s : Slot) (b bb : Bool)
    (hA : w.sigAlive = true)
    (hc : c.slot = some i)
    (hfind : w.slots.find? (fun t => t.id == i) = some s)
    (ht : s.hasTarget = true)
    (hpure : ∀ t ∈ w.slots, t.effects = [])
    (hu : isTerminated u d = true) :
    slotsSize (conActivate v e bb) = slotsSize v
    ∧ i ∉ (emitSig args (conActivate w c false).slots).1.map Prod.fst
    ∧ (emitSig args (conActivate w c false).slots).2 = (conActivate w c false).slots
    ∧ i ∈ (emitSig args (conActivate (conActivate w c false) c true).slots).1.map Prod.fst
    ∧ conActivate u d b = u
    ∧ conIsActive u d = false
    ∧ conIsActive w c = s.active := by
  have hsid : (s.id == i) = true := by
    have hps := List.find?_some hfind
    simpa using hps
  have hs : s ∈ w.slots := List.mem_of_find?_eq_some hfind
  have hany : (w.slots.any fun t => t.id == i) = true := any_of_find? hfind
  have hw1 : (conActivate w c false).slots
      = w.slots.map (fun t => if t.id == i then { t with active := false } else t) :=
    conActivate_slots_eq hA hc hany false
  have hpure1 : ∀ t ∈ (conActivate w c false).slots, t.effects = [] := by
    rw [hw1]
    intro t htm
    obtain ⟨t0, ht0, rfl⟩ := List.mem_map.mp htm
    rw [activeUpdate_effects]
    exact hpure t0 ht0
  have hchar1 := emitSig_pure args hpure1
  have hA1 : (conActivate w c false).sigAlive = true := by
    rw [conActivate_sigAlive]
    exact hA
  have hany1 : ((conActivate w c false).slots.any fun t => t.id == i) = true := by
    rw [hw1]
    refine List.any_eq_true.mpr ⟨if s.id == i then { s with active := false } else s,
      List.mem_map_of_mem _ hs, ?_⟩
    rw [activeUpdate_id]
    exact hsid
  have hw2 : (conActivate (conActivate w c false) c true).slots
      = (conActivate w c false).slots.map
          (fun t => if t.id == i then { t with active := true } else t) :=
    conActivate_slots_eq hA1 hc hany1 true
  have hpure2 : ∀ t ∈ (conActivate (conActivate w c false) c true).slots, t.effects = [] := by
    rw [hw2]
    intro t htm
    obtain ⟨t0, ht0, rfl⟩ := List.mem_map.mp htm
    rw [activeUpdate_effects]
    exact hpure1 t0 ht0
  have hchar2 := emitSig_pure args hpure2
  refine ⟨conActivate_length v e bb, ?_, ?_, ?_, conActivate_of_terminated hu b,
    conIsActive_of_terminated hu, conIsActive_of_find hA hc hfind⟩
  · -- deactivated slot is skipped
    rw [hchar1]
    simp only [List.map_map]
    intro hmem
    obtain ⟨t, htf, hid⟩ := List.mem_map.mp hmem
    obtain ⟨htm, hp⟩ := List.mem_filter.mp htf
    rw [hw1] at htm
    obtain ⟨t0, ht0, rfl⟩ := List.mem_map.mp htm
    by_cases h0 : (t0.id == i) = true
    · rw [if_pos h0] at hp
      simp at hp
    · rw [if_neg (by simpa using h0)] at hid hp
      simp only [Function.comp] at hid
      exact h0 (by simp [hid])
  · -- pure pass leaves the container unchanged
    rw [hchar1]
  · -- reactivated slot is invoked again
    rw [hchar2]
    simp only [List.map_map]
    have hf : (if s.id == i then { s with active := false } else s)
        = { s with active := false } := if_pos hsid
    have hfid : ((if s.id == i then { s with active := false } else s).id == i) = true := by
      rw [activeUpdate_id]
      exact hsid
    refine List.mem_map.mpr ⟨if (if s.id == i then { s with active := false } else s).id == i
        then { (if s.id == i then { s with active := false } else s) with active := true }
        else (if s.id == i then { s with active := false } else s), ?_, ?_⟩
    · refine List.mem_filter.mpr ⟨?_, ?_⟩
      · rw [hw2]
        exact List.mem_map_of_mem _ (by rw [hw1]; exact List.mem_map_of_mem _ hs)
      · rw [if_pos hfid, hf]
        simp [ht]
    · rw [if_pos hfid, hf]
      simpa using hsid

theorem activation_contract_witness :
    slotsSize (conActivate initWorld { slot := none, sig := false } false)
      = slotsSize initWorld
    ∧ 0 ∉ (emitSig (9 : Nat) (conActivate (signalConnect initWorld true []).1
          { slot := some 0, sig := true } false).slots).1.map Prod.fst
    ∧ (emitSig (9 : Nat) (conActivate (signalConnect initWorld true []).1
          { slot := some 0, sig := true } false).slots).2
        = (conActivate (signalConnect initWorld true []).1
            { slot := some 0, sig := true } false).slots
    ∧ 0 ∈ (emitSig (9 : Nat) (conActivate (conActivate (signalConnect initWorld true []).1
            { slot := some 0, sig := true } false)
          { slot := some 0, sig := true } true).slots).1.map Prod.fst
    ∧ conActivate (destroySignal (signalConnect initWorld true []).1)
        { slot := some 0, sig := true } true
      = destroySignal (signalConnect initWorld true []).1
    ∧ conIsActive (destroySignal (signalConnect initWorld true []).1)
        { slot := some 0, sig := true } = false
    ∧ conIsActive (signalConnect initWorld true []).1 { slot := some 0, sig := true }
      = ({ id := 0, hasTarget := true, active := true, effects := [] } : Slot).active :=
  activation_contract (9 : Nat) (signalConnect initWorld true []).1
    (destroySignal (signalConnect initWorld true []).1) initWorld
    { slot := some 0, sig := true } { slot := some 0, sig := true }
    { slot := none, sig := false } 0
    { id := 0, hasTarget := true, active := true, effects := [] } true false
    (by decide) (by decide) (by decide) (by decide) (by decide) (by decide)

/-- C10: terminating one connection touches only its own identity. The
slot list becomes exactly the erase-remove filter of that id (an order-
and field-preserving sublist of the old list), and any connection bound
to a different id keeps both its `IsTerminated` and `IsActive` values;
the signal's liveness and the owner state are untouched. -/
theorem terminate_frame (w : World) (c c' : Connection) (i j : Nat)
    (hA : w.sigAlive = true) (hc : c.slot = some i) (hwf : ConnWF c)
    (hc' : c'.slot = some j) (hne : j ≠ i) :
    (conTerminate w c).slots = w.slots.filter (fun s => s.id != i)
    ∧ (conTerminate w c).slots.Sublist w.slots
    ∧ isTerminated (conTerminate w c) c' = isTerminated w c'
    ∧ conIsActive (conTerminate w c) c' = conIsActive w c'
    ∧ (conTerminate w c).sigAlive = w.sigAlive
    ∧ (conTerminate w c).owned = w.owned
    ∧ (conTerminate w c).ownerAlive = w.ownerAlive := by
  have hsig : c.sig = true := by
    unfold ConnWF at hwf
    rw [hc] at hwf
    simpa using hwf
  have hslots := conTerminate_slots_filter hA hc hsig
  refine ⟨hslots, ?_, ?_, ?_, conTerminate_sigAlive w c, conTerminate_owned w c,
    conTerminate_ownerAlive w c⟩
  · rw [hslots]
    exact List.filter_sublist w.slots
  · simp only [isTerminated, hc']
    rw [conTerminate_sigAlive, hslots, any_beq_filter_ne hne]
  · simp only [conIsActive, hc']
    rw [conTerminate_sigAlive, hslots, find?_beq_filter_ne hne]

theorem terminate_frame_witness :
    (conTerminate (signalConnect (signalConnect initWorld true []).1 true []).1
        { slot := some 0, sig := true }).slots
      = (signalConnect (signalConnect initWorld true []).1 true []).1.slots.filter
          (fun s => s.id != 0)
    ∧ (conTerminate (signalConnect (signalConnect initWorld true []).1 true []).1
        { slot := some 0, sig := true }).slots.Sublist
        (signalConnect (signalConnect initWorld true []).1 true []).1.slots
    ∧ isTerminated (conTerminate (signalConnect (signalConnect initWorld true []).1 true []).1
          { slot := some 0, sig := true }) { slot := some 1, sig := true }
      = isTerminated (signalConnect (signalConnect initWorld true []).1 true []).1
          { slot := some 1, sig := true }
    ∧ conIsActive (conTerminate (signalConnect (signalConnect initWorld true []).1 true []).1
          { slot := some 0, sig := true }) { slot := some 1, sig := true }
      = conIsActive (signalConnect (signalConnect initWorld true []).1 true []).1
          { slot := some 1, sig := true }
    ∧ (conTerminate (signalConnect (signalConnect initWorld true []).1 true []).1
        { slot := some 0, sig := true }).sigAlive
      = (signalConnect (signalConnect initWorld true []).1 true []).1.sigAlive
    ∧ (conTerminate (signalConnect (signalConnect initWorld true []).1 true []).1
        { slot := some 0, sig := true }).owned
      = (signalConnect (signalConnect initWorld true []).1 true []).1.owned
    ∧ (conTerminate (signalConnect (signalConnect initWorld true []).1 true []).1
        { slot := some 0, sig := true }).ownerAlive
      = (signalConnect (signalConnect initWorld true []).1 true []).1.ownerAlive :=
  terminate_frame (signalConnect (signalConnect initWorld true []).1 true []).1
    { slot := some 0, sig := true } { slot := some 1, sig := true } 0 1
    (by decide) (by decide) (by decide) (by decide) (by decide)

end SigSlot
